import Mathlib

/-!
A shallow embedding of the git object-store core from src/main.rs:
the object codec (Object::read / Object::write), the recursive tree
builder (write_tree), the tree-entry iteration loop (ls-tree), and the
commit-payload assembly (commit-tree).

Modelling conventions:
* Byte sequences are lists of natural numbers (each byte < 256 where the
  source guarantees it).  Rust strings appear as their UTF-8 byte lists.
* The filesystem object store is an association list from path strings
  (as byte lists) to file contents.  zlib compression is a bijection on
  the wire applied at the I/O boundary (ZlibEncoder on write, ZlibDecoder
  on read); the model's store holds the decompressed stream directly, so
  a stored value is exactly what the reader sees after decompression.
* Rust panics (str::split_at out of bounds / off a char boundary) are a
  distinguished outcome, separate from recoverable errors.
* Machine integers are Nat with explicit reductions modulo 2^32 / 2^64
  where the source's u32 / u64 arithmetic wraps or bounds-checks.
-/

set_option maxRecDepth 40000

abbrev Bytes := List Nat

/-- UTF-8 bytes of an ASCII string literal (all literals used are ASCII,
where code points and bytes coincide). -/
def strBytes (s : String) : Bytes := s.data.map Char.toNat

/-! ## SHA-1 (the sha1 crate's digest, RFC 3174) -/

def rotl32 (n w : Nat) : Nat := ((w <<< n) ||| (w >>> (32 - n))) % 4294967296

/-- Big-endian 8-byte encoding of the 64-bit message bit length. -/
def beBytes8 (n : Nat) : Bytes :=
  [(n >>> 56) % 256, (n >>> 48) % 256, (n >>> 40) % 256, (n >>> 32) % 256,
   (n >>> 24) % 256, (n >>> 16) % 256, (n >>> 8) % 256, n % 256]

/-- SHA-1 padding: 0x80, zeros to 56 mod 64, then the bit length. -/
def sha1Pad (m : Bytes) : Bytes :=
  m ++ [128] ++ List.replicate ((55 + 64 - m.length % 64) % 64) 0
    ++ beBytes8 ((8 * m.length) % 18446744073709551616)

/-- Big-endian 32-bit words from bytes (length a multiple of 4). -/
def bytesToWords : Bytes → List Nat
  | a :: b :: c :: d :: rest =>
      (a * 16777216 + b * 65536 + c * 256 + d) :: bytesToWords rest
  | _ => []

/-- Split into 64-byte blocks (the padded length is a multiple of 64). -/
def chunks64 (l : Bytes) : List Bytes :=
  (List.range (l.length / 64)).map (fun i => (l.drop (64 * i)).take 64)

/-- Message-schedule extension; acc holds the words produced so far,
most recent first, so w[i-3] is acc[2], …, w[i-16] is acc[15]. -/
def extendWords : Nat → List Nat → List Nat
  | 0, acc => acc
  | n + 1, acc =>
      let w := rotl32 1 ((acc.getD 2 0) ^^^ (acc.getD 7 0) ^^^
                         (acc.getD 13 0) ^^^ (acc.getD 15 0))
      extendWords n (w :: acc)

def sha1F (t b c d : Nat) : Nat :=
  if t < 20 then (b &&& c) ||| ((b ^^^ 4294967295) &&& d)
  else if t < 40 then b ^^^ c ^^^ d
  else if t < 60 then (b &&& c) ||| (b &&& d) ||| (c &&& d)
  else b ^^^ c ^^^ d

def sha1K (t : Nat) : Nat :=
  if t < 20 then 1518500249
  else if t < 40 then 1859775393
  else if t < 60 then 2400959708
  else 3395469782

def sha1Rounds : List Nat → Nat → Nat × Nat × Nat × Nat × Nat →
    Nat × Nat × Nat × Nat × Nat
  | [], _, st => st
  | w :: ws, t, (a, b, c, d, e) =>
      let temp := (rotl32 5 a + sha1F t b c d + e + sha1K t + w) % 4294967296
      sha1Rounds ws (t + 1) (temp, a, rotl32 30 b, c, d)

def sha1Block (h : Nat × Nat × Nat × Nat × Nat) (block : Bytes) :
    Nat × Nat × Nat × Nat × Nat :=
  let ws := (extendWords 64 (bytesToWords block).reverse).reverse
  let (a, b, c, d, e) := sha1Rounds ws 0 h
  let (h0, h1, h2, h3, h4) := h
  ((h0 + a) % 4294967296, (h1 + b) % 4294967296, (h2 + c) % 4294967296,
   (h3 + d) % 4294967296, (h4 + e) % 4294967296)

/-- Big-endian bytes of one 32-bit word. -/
def wordBytes (w : Nat) : Bytes :=
  [(w >>> 24) % 256, (w >>> 16) % 256, (w >>> 8) % 256, w % 256]

/-- The 20-byte SHA-1 digest of a byte sequence. -/
def sha1 (m : Bytes) : Bytes :=
  let (h0, h1, h2, h3, h4) :=
    (chunks64 (sha1Pad m)).foldl sha1Block
      (1732584193, 4023233417, 2562383102, 271733878, 3285377520)
  wordBytes h0 ++ wordBytes h1 ++ wordBytes h2 ++ wordBytes h3 ++ wordBytes h4

/-- Lowercase hex rendering (the hex crate's encode), two digits a byte. -/
def hexDigit (n : Nat) : Nat := if n < 10 then 48 + n else 87 + n

def hexEncode (bs : Bytes) : Bytes :=
  bs.foldr (fun b acc => hexDigit (b / 16) :: hexDigit (b % 16) :: acc) []

example : hexEncode (sha1 (strBytes "abc")) =
    strBytes "a9993e364706816aba3e25717850c26c9cd0d89d" := by decide

example : hexEncode (sha1 []) =
    strBytes "da39a3ee5e6b4b0d3255bfef95601890afd80709" := by decide

example : hexEncode (sha1 (strBytes "blob 5" ++ [0] ++ strBytes "world")) =
    strBytes "04fea06420ca60892f73becee3614f6d023a4b7f" := by decide

/-! ## Byte-stream helpers used by Object::read and the ls-tree loop -/

/-- BufRead::read_until(0, buf): the consumed bytes (up to and including
the first null, or the whole stream if none) and the remaining bytes. -/
def readUntil0 : Bytes → Bytes × Bytes
  | [] => ([], [])
  | b :: bs =>
      if b = 0 then ([0], bs)
      else
        let r := readUntil0 bs
        (b :: r.1, r.2)

/-- slice::split_last(): the list without its final element, and that
final element; none on the empty list. -/
def splitLast? : Bytes → Option (Bytes × Nat)
  | [] => none
  | [b] => some ([], b)
  | b :: c :: rest =>
      match splitLast? (c :: rest) with
      | none => none
      | some (init, last) => some (b :: init, last)

/-- str::split_once(' ') at the byte level: the text before and after the
first space, none when there is no space. -/
def splitOnceSpace : Bytes → Option (Bytes × Bytes)
  | [] => none
  | b :: bs =>
      if b = 32 then some ([], bs)
      else
        match splitOnceSpace bs with
        | none => none
        | some (x, y) => some (b :: x, y)

/-- str::parse::<u64>(): optional leading '+', then one or more ASCII
digits, value below 2^64 (overflow is an error). -/
def parseU64 (bs : Bytes) : Option Nat :=
  let ds := if bs.head? = some 43 then bs.tail else bs
  if ds = [] then none
  else if ds.all (fun b => 48 ≤ b && b ≤ 57) then
    let v := ds.foldl (fun acc b => acc * 10 + (b - 48)) 0
    if v < 18446744073709551616 then some v else none
  else none

/-- A UTF-8 continuation byte (0x80–0xBF). -/
def isCont (b : Nat) : Bool := 128 ≤ b && b ≤ 191

/-- One step of the UTF-8 validation automaton.  State 0 expects a
leading byte (and is the accepting state); states 1-3 expect that many
generic continuation bytes; states 10-13 expect the range-restricted
first continuation after E0 / ED / F0 / F4 (rejecting overlong forms,
surrogates and code points above U+10FFFF, per RFC 3629); state 99 is
the absorbing reject state. -/
def utf8Step (st b : Nat) : Nat :=
  if st = 0 then
    if b ≤ 127 then 0
    else if b ≤ 193 then 99
    else if b ≤ 223 then 1
    else if b = 224 then 10
    else if b ≤ 236 then 2
    else if b = 237 then 11
    else if b ≤ 239 then 2
    else if b = 240 then 12
    else if b ≤ 243 then 3
    else if b = 244 then 13
    else 99
  else if st = 1 then if isCont b then 0 else 99
  else if st = 2 then if isCont b then 1 else 99
  else if st = 3 then if isCont b then 2 else 99
  else if st = 10 then if 160 ≤ b && b ≤ 191 then 1 else 99
  else if st = 11 then if 128 ≤ b && b ≤ 159 then 1 else 99
  else if st = 12 then if 144 ≤ b && b ≤ 191 then 2 else 99
  else if st = 13 then if 128 ≤ b && b ≤ 143 then 2 else 99
  else 99

/-- String::from_utf8's validity check: the automaton accepts the whole
byte sequence. -/
def utf8Valid (bs : Bytes) : Bool := bs.foldl utf8Step 0 == 0

/-- Decimal digits of a positive number, most significant first; the
first argument is fuel (n itself suffices since n/10 < n). -/
def natDigitsAux : Nat → Nat → Bytes
  | 0, _ => []
  | _ + 1, 0 => []
  | fuel + 1, n + 1 => natDigitsAux fuel ((n + 1) / 10) ++ [48 + (n + 1) % 10]

/-- format!("{}") of a usize: standard decimal rendering. -/
def decimalBytes (n : Nat) : Bytes :=
  if n = 0 then [48] else natDigitsAux n n

/-- str::is_char_boundary(2), the precondition of hash.split_at(2): true
when the length is exactly 2, or byte index 2 exists and does not hold a
UTF-8 continuation byte; false when the length is below 2. -/
def isCharBoundary2 (bs : Bytes) : Bool :=
  if bs.length < 2 then false
  else
    match bs.drop 2 with
    | [] => true
    | b :: _ => b ≤ 127 || 192 ≤ b

/-! ## The object codec (enum Kind, Object::write, Object::read) -/

inductive Kind
  | blob
  | tree
  | commit
deriving DecidableEq

/-- The Display impl: blob / tree / commit. -/
def Kind.name : Kind → Bytes
  | .blob => strBytes "blob"
  | .tree => strBytes "tree"
  | .commit => strBytes "commit"

/-- Kind::from: the closed tag set; any other token is an error (none). -/
def Kind.fromBytes (s : Bytes) : Option Kind :=
  if s = strBytes "blob" then some .blob
  else if s = strBytes "tree" then some .tree
  else if s = strBytes "commit" then some .commit
  else none

/-- The object store: an association list from file path (as UTF-8 bytes)
to the decompressed content of the stored file; the most recent write
shadows earlier ones (fs::write overwrites). -/
abbrev Store := List (Bytes × Bytes)

def storeLookup (st : Store) (path : Bytes) : Option Bytes :=
  (st.find? (fun e => e.1 == path)).map (fun e => e.2)

def storeInsert (st : Store) (path value : Bytes) : Store :=
  (path, value) :: st

/-- The storage path of an object given its 40-hex-digit identity:
".git/objects/<first 2 hex digits>/<remaining hex digits>". -/
def objectPath (hexId : Bytes) : Bytes :=
  strBytes ".git/objects/" ++ hexId.take 2 ++ [47] ++ hexId.drop 2

/-- Object::write: build "<kind> <len>\x00" ++ content, hash it with
SHA-1, store the (zlib-compressed) formatted content under the path
derived from the hex digest, and return the raw 20-byte digest. -/
def Object.write (st : Store) (kind : Kind) (content : Bytes) :
    Store × Bytes :=
  let formatted := kind.name ++ [32] ++ decimalBytes content.length ++ [0]
    ++ content
  let hash := sha1 formatted
  let hexh := hexEncode hash
  (storeInsert st (objectPath hexh) formatted, hash)

/-- The canonical serialized form as the spec words it: the header
"<kind-name> <decimal-payload-length>" then a null byte, then the
payload bytes. -/
def canonicalForm (kind : Kind) (payload : Bytes) : Bytes :=
  kind.name ++ [32] ++ decimalBytes payload.length ++ [0] ++ payload

inductive ReadErr
  | notFound
  | malformedHeader
  | unknownKind
  | invalidSize
deriving DecidableEq

/-- Header parsing and payload bounding on a decompressed object stream,
as Object::read performs after opening the file: read_until(0), strip
the final byte with split_last, validate UTF-8, split at the first
space, parse the size as u64, match the kind tag, and bound the payload
reader to size bytes with Read::take. -/
def parseStream (stream : Bytes) : Except ReadErr (Kind × Nat × Bytes) :=
  let br := readUntil0 stream
  match splitLast? br.1 with
  | none => .error .malformedHeader
  | some (headerBytes, _) =>
      if utf8Valid headerBytes then
        match splitOnceSpace headerBytes with
        | none => .error .malformedHeader
        | some (kindBytes, sizeBytes) =>
            match parseU64 sizeBytes with
            | none => .error .invalidSize
            | some size =>
                match Kind.fromBytes kindBytes with
                | none => .error .unknownKind
                | some kind => .ok (kind, size, br.2.take size)
      else .error .malformedHeader

/-- The outcome of Object::read: a Rust panic (hash.split_at(2) off a
char boundary), a recoverable error, or a decoded object. The payload
field holds the bytes the take-bounded reader can produce. -/
inductive ReadResult
  | panic
  | error (e : ReadErr)
  | ok (kind : Kind) (expectedSize : Nat) (payload : Bytes)
deriving DecidableEq

/-- Object::read: split the hex identity at byte index 2 (panics off a
char boundary), open ".git/objects/<folder>/<filename>" (absent file is
the not-found error), decompress, and parse the stream. -/
def Object.read (st : Store) (hash : Bytes) : ReadResult :=
  if isCharBoundary2 hash then
    let folder := hash.take 2
    let filename := hash.drop 2
    let path := strBytes ".git/objects/" ++ folder ++ [47] ++ filename
    match storeLookup st path with
    | none => .error .notFound
    | some stream =>
        match parseStream stream with
        | .error e => .error e
        | .ok (kind, size, payload) => .ok kind size payload
  else .panic

example :
    (Object.read (Object.write [] .blob (strBytes "world")).1
      (hexEncode (Object.write [] .blob (strBytes "world")).2)) =
    .ok .blob 5 (strBytes "world") := by decide

example : Object.read [] [] = .panic := by decide

/-! ## Claims C10, C5, C6: the read path's panic, error and bounding
behaviour -/

theorem splitLast?_cons_isSome :
    ∀ (bs : Bytes) (b : Nat), (splitLast? (b :: bs)).isSome = true := by
  intro bs
  induction bs with
  | nil => intro b; rfl
  | cons c rest ih =>
      intro b
      have := ih c
      rw [splitLast?]
      cases hsl : splitLast? (c :: rest) with
      | none => rw [hsl] at this; simp at this
      | some pr => simp

/-- C10 (amended): Object::read returns NotFound on an absent path
whenever byte index 2 of the identity is a char boundary (as for any
hex identity); otherwise — in particular whenever the identity is
shorter than 2 bytes, and also when its third byte is a UTF-8
continuation byte — it panics at hash.split_at(2). -/
theorem c10_read_notfound_or_panic :
    (∀ (st : Store) (h : Bytes), isCharBoundary2 h = true →
        storeLookup st (objectPath h) = none →
        Object.read st h = ReadResult.error ReadErr.notFound)
    ∧ (∀ (st : Store) (h : Bytes), isCharBoundary2 h = false →
        Object.read st h = ReadResult.panic)
    ∧ (∀ (st : Store) (h : Bytes), h.length < 2 →
        Object.read st h = ReadResult.panic) := by
  have hsnd : ∀ (st : Store) (h : Bytes), isCharBoundary2 h = false →
      Object.read st h = ReadResult.panic := by
    intro st h hbd
    rw [Object.read, if_neg (by rw [hbd]; exact Bool.false_ne_true)]
  refine ⟨?_, hsnd, ?_⟩
  · intro st h hbd hlook
    rw [Object.read, if_pos hbd]
    have hpath : strBytes ".git/objects/" ++ h.take 2 ++ [47] ++ h.drop 2
        = objectPath h := by simp [objectPath]
    show (match storeLookup st
        (strBytes ".git/objects/" ++ h.take 2 ++ [47] ++ h.drop 2) with
      | none => ReadResult.error ReadErr.notFound
      | some stream =>
          match parseStream stream with
          | .error e => ReadResult.error e
          | .ok (kind, size, payload) => ReadResult.ok kind size payload)
      = ReadResult.error ReadErr.notFound
    rw [hpath, hlook]
  · intro st h hlen
    refine hsnd st h ?_
    unfold isCharBoundary2
    rw [if_pos hlen]

/-- C10 witness: a hex identity resolves to NotFound on an empty store;
the empty identity and a one-byte identity panic. -/
theorem c10_witness :
    (isCharBoundary2 (strBytes "abcd") = true
      ∧ storeLookup [] (objectPath (strBytes "abcd")) = none
      ∧ Object.read [] (strBytes "abcd")
          = ReadResult.error ReadErr.notFound)
    ∧ (([] : Bytes).length < 2 ∧ Object.read [] [] = ReadResult.panic)
    ∧ (([97] : Bytes).length < 2
        ∧ Object.read [] [97] = ReadResult.panic) :=
  ⟨⟨by decide, by decide, c10_read_notfound_or_panic.1 []
      (strBytes "abcd") (by decide) (by decide)⟩,
   ⟨by decide, c10_read_notfound_or_panic.2.2 [] [] (by decide)⟩,
   ⟨by decide, c10_read_notfound_or_panic.2.2 [] [97] (by decide)⟩⟩

/-- C10 counterexample: the euro sign is a valid UTF-8 identity of byte
length 3 (at least 2) whose storage path is absent from the empty store,
yet Object::read panics at the split (byte index 2 is inside the
character) instead of returning NotFound. -/
theorem c10_counterexample :
    2 ≤ ([226, 130, 172] : Bytes).length
    ∧ utf8Valid [226, 130, 172] = true
    ∧ storeLookup [] (objectPath [226, 130, 172]) = none
    ∧ Object.read [] [226, 130, 172] = ReadResult.panic := by decide

/-- C5 (amended): header parsing fails with the malformed-header error
exactly when the consumed prefix (up to and including the first null
byte, or the whole stream when there is none) is empty, or — after
split_last strips its final byte, null or not — the remaining bytes are
not valid UTF-8 or contain no space to split into two tokens.  A stream
with no null byte is therefore not necessarily rejected: its final
content byte is stripped as if it were the terminator. -/
theorem c5_malformed_header_iff (stream : Bytes) :
    parseStream stream = .error .malformedHeader ↔
      ((readUntil0 stream).1 = []
       ∨ ∃ wn last, splitLast? (readUntil0 stream).1 = some (wn, last)
           ∧ (utf8Valid wn = false ∨ splitOnceSpace wn = none)) := by
  rw [parseStream]
  cases hsl : splitLast? (readUntil0 stream).1 with
  | none =>
      simp only []
      constructor
      · intro _
        left
        cases hbuf : (readUntil0 stream).1 with
        | nil => rfl
        | cons b bs =>
            exfalso
            have hs := splitLast?_cons_isSome bs b
            rw [← hbuf, hsl] at hs
            simp at hs
      · intro _; trivial
  | some pr =>
      obtain ⟨wn, last⟩ := pr
      simp only []
      have hne : (readUntil0 stream).1 ≠ [] := by
        intro hh
        rw [hh] at hsl
        exact Option.noConfusion hsl
      by_cases hv : utf8Valid wn = true
      · rw [if_pos hv]
        cases hsp : splitOnceSpace wn with
        | none =>
            constructor
            · intro _
              right
              exact ⟨wn, last, rfl, Or.inr hsp⟩
            · intro _; trivial
        | some pr2 =>
            obtain ⟨kb, sb⟩ := pr2
            constructor
            · intro herr
              exfalso
              simp only [] at herr
              cases hpu : parseU64 sb with
              | none => rw [hpu] at herr; simp at herr
              | some size =>
                  rw [hpu] at herr
                  cases hkf : Kind.fromBytes kb with
                  | none => rw [hkf] at herr; simp at herr
                  | some kk => rw [hkf] at herr; simp at herr
            · intro hrhs
              exfalso
              rcases hrhs with hl | ⟨wn2, last2, hsl2, hcond⟩
              · exact hne hl
              · have hpair := Option.some.inj hsl2
                have hwn : wn = wn2 := congrArg Prod.fst hpair
                rcases hcond with hc | hc
                · rw [← hwn, hv] at hc; exact Bool.noConfusion hc
                · rw [← hwn, hsp] at hc; exact Option.noConfusion hc
      · rw [if_neg hv]
        constructor
        · intro _
          right
          refine ⟨wn, last, rfl, Or.inl ?_⟩
          revert hv
          cases utf8Valid wn <;> simp
        · intro _; trivial

/-- C5 witness for the amended characterization: the empty stream is
rejected as a malformed header. -/
theorem c5_witness : parseStream [] = .error .malformedHeader :=
  (c5_malformed_header_iff []).mpr (Or.inl rfl)

/-- C5 counterexample: a stored object whose decompressed stream
"blob 0!" contains no null byte at all, yet Object::read succeeds —
the final byte is stripped as if it were the terminator and the rest
parses as a header — instead of failing with a malformed-header
error. -/
theorem c5_counterexample :
    (0 : Nat) ∉ strBytes "blob 0!"
    ∧ Object.read [(objectPath (strBytes "abcd"), strBytes "blob 0!")]
        (strBytes "abcd") = ReadResult.ok Kind.blob 0 [] := by decide

theorem parseStream_ok_payload {stream : Bytes} {k : Kind} {s : Nat}
    {p : Bytes} (h : parseStream stream = .ok (k, s, p)) :
    p = (readUntil0 stream).2.take s := by
  rw [parseStream] at h
  split at h
  · simp at h
  · split at h
    · split at h
      · simp at h
      · split at h
        · simp at h
        · split at h
          · simp at h
          · simp only [Except.ok.injEq, Prod.mk.injEq] at h
            obtain ⟨_, hs, hp⟩ := h
            rw [← hp, ← hs]
    · simp at h

/-- C6: a successfully decoded object's payload reader yields at most
expected_size bytes past the header — it is exactly the size-bounded
take of the decompressed stream beyond the header — so trailing bytes
beyond the declared length are unreachable. -/
theorem c6_payload_bounded (st : Store) (h : Bytes) (k : Kind) (s : Nat)
    (p : Bytes) (hread : Object.read st h = .ok k s p) :
    p.length ≤ s
    ∧ ∃ stream, storeLookup st (objectPath h) = some stream
        ∧ p = (readUntil0 stream).2.take s := by
  rw [Object.read] at hread
  by_cases hbd : isCharBoundary2 h = true
  · rw [if_pos hbd] at hread
    simp only [] at hread
    have hpath : strBytes ".git/objects/" ++ h.take 2 ++ [47] ++ h.drop 2
        = objectPath h := by simp [objectPath]
    rw [hpath] at hread
    split at hread
    · simp at hread
    · rename_i stream hl
      split at hread
      · simp at hread
      · rename_i kk ss pp hps
        simp only [ReadResult.ok.injEq] at hread
        obtain ⟨hk, hs, hp⟩ := hread
        subst hk; subst hs; subst hp
        have hpay := parseStream_ok_payload hps
        refine ⟨?_, stream, hl, hpay⟩
        rw [hpay, List.length_take]
        omega
  · rw [if_neg hbd] at hread; simp at hread

/-- C6 witness: a stream declaring size 3 with five payload bytes: the
reader yields exactly the first three. -/
theorem c6_witness :
    Object.read
        [(objectPath (strBytes "abcd"), strBytes "blob 3" ++ 0 :: strBytes "hello")]
        (strBytes "abcd") = .ok Kind.blob 3 (strBytes "hel")
    ∧ ((strBytes "hel").length ≤ 3
        ∧ ∃ stream, storeLookup
            [(objectPath (strBytes "abcd"), strBytes "blob 3" ++ 0 :: strBytes "hello")]
            (objectPath (strBytes "abcd")) = some stream
          ∧ strBytes "hel" = (readUntil0 stream).2.take 3) :=
  ⟨by decide, c6_payload_bounded _ _ Kind.blob 3 (strBytes "hel") (by decide)⟩

/-! ## The tree builder (write_tree) -/

/-- OsString comparison as sort_by uses it: byte-wise lexicographic
"less or equal". -/
def bytesLe : Bytes → Bytes → Bool
  | [], _ => true
  | _ :: _, [] => false
  | a :: as, b :: bs =>
      if a < b then true
      else if b < a then false
      else bytesLe as bs

theorem bytesLe_total (a b : Bytes) : bytesLe a b = true ∨ bytesLe b a = true := by
  induction a generalizing b with
  | nil => left; rfl
  | cons x xs ih =>
      cases b with
      | nil => right; rfl
      | cons y ys =>
          by_cases hxy : x < y
          · left; simp [bytesLe, hxy]
          · by_cases hyx : y < x
            · right; simp [bytesLe, hyx, hxy]
            · have hx : x = y := Nat.le_antisymm (Nat.le_of_not_lt hyx) (Nat.le_of_not_lt hxy)
              subst hx
              rcases ih ys with h | h
              · left; simp [bytesLe, h]
              · right; simp [bytesLe, h]

theorem bytesLe_antisymm {a b : Bytes} (h1 : bytesLe a b = true)
    (h2 : bytesLe b a = true) : a = b := by
  induction a generalizing b with
  | nil =>
      cases b with
      | nil => rfl
      | cons y ys => simp [bytesLe] at h2
  | cons x xs ih =>
      cases b with
      | nil => simp [bytesLe] at h1
      | cons y ys =>
          by_cases hxy : x < y
          · simp [bytesLe, hxy, Nat.not_lt_of_lt hxy] at h2
          · by_cases hyx : y < x
            · simp [bytesLe, hxy, hyx] at h1
            · have hx : x = y := Nat.le_antisymm (Nat.le_of_not_lt hyx) (Nat.le_of_not_lt hxy)
              subst hx
              simp only [bytesLe, Nat.lt_irrefl, if_false] at h1 h2
              rw [ih h1 h2]

theorem bytesLe_trans {a b c : Bytes} (h1 : bytesLe a b = true)
    (h2 : bytesLe b c = true) : bytesLe a c = true := by
  induction a generalizing b c with
  | nil => rfl
  | cons x xs ih =>
      cases b with
      | nil => simp [bytesLe] at h1
      | cons y ys =>
          cases c with
          | nil => simp [bytesLe] at h2
          | cons z zs =>
              simp only [bytesLe] at h1 h2 ⊢
              by_cases hxy : x < y
              · by_cases hyz : y < z
                · simp [Nat.lt_trans hxy hyz]
                · by_cases hzy : z < y
                  · simp [bytesLe, hyz, hzy] at h2
                  · have : y = z := Nat.le_antisymm (Nat.le_of_not_lt hzy) (Nat.le_of_not_lt hyz)
                    subst this
                    simp [hxy]
              · by_cases hyx : y < x
                · simp [hxy, hyx] at h1
                · have : x = y := Nat.le_antisymm (Nat.le_of_not_lt hyx) (Nat.le_of_not_lt hxy)
                  subst this
                  simp only [Nat.lt_irrefl, if_false] at h1
                  by_cases hyz : x < z
                  · simp [hyz]
                  · by_cases hzy : z < x
                    · simp [bytesLe, hyz, hzy] at h2
                    · have : x = z := Nat.le_antisymm (Nat.le_of_not_lt hzy) (Nat.le_of_not_lt hyz)
                      subst this
                      simp only [Nat.lt_irrefl, if_false] at h2 ⊢
                      exact ih h1 h2

/-- The working tree: a file with contents, or a directory with a listing
in filesystem order.  A listing item is none when reading that directory
entry failed (the Err(_) case of the fold in write_tree). -/
inductive FSNode
  | file (content : Bytes)
  | dir (listing : List (Option (Bytes × FSNode)))

/-- The ".git" exclusion name. -/
def dotGitBytes : Bytes := strBytes ".git"

/-- One step of the fold over read_dir's results in write_tree: keep a
successfully read entry whose name is not ".git", silently drop a failed
read (the Err(_) arm). -/
def collectStep (acc : List (Bytes × FSNode))
    (x : Option (Bytes × FSNode)) : List (Bytes × FSNode) :=
  match x with
  | some entry => if entry.1 ≠ dotGitBytes then acc ++ [entry] else acc
  | none => acc

/-- The fold over read_dir's results in write_tree. -/
def collectEntries (listing : List (Option (Bytes × FSNode))) :
    List (Bytes × FSNode) :=
  listing.foldl collectStep []

/-- The same fold as a filterMap, for reasoning. -/
def collectF : Option (Bytes × FSNode) → Option (Bytes × FSNode)
  | some entry => if entry.1 ≠ dotGitBytes then some entry else none
  | none => none

theorem collectEntries_eq (listing : List (Option (Bytes × FSNode))) :
    collectEntries listing = listing.filterMap collectF := by
  have go : ∀ (l : List (Option (Bytes × FSNode)))
      (acc : List (Bytes × FSNode)),
      l.foldl collectStep acc = acc ++ l.filterMap collectF := by
    intro l
    induction l with
    | nil => intro acc; simp
    | cons x xs ih =>
        intro acc
        rw [List.foldl_cons]
        cases x with
        | none =>
            have h1 : collectStep acc none = acc := rfl
            rw [h1, ih acc]
            simp [collectF]
        | some entry =>
            by_cases h : entry.1 = dotGitBytes
            · have h1 : collectStep acc (some entry) = acc := by
                simp [collectStep, h]
              rw [h1, ih acc]
              simp [collectF, h]
            · have h1 : collectStep acc (some entry) = acc ++ [entry] := by
                simp [collectStep, h]
              rw [h1, ih (acc ++ [entry])]
              simp [collectF, h]
  simpa [collectEntries] using go listing []

/-- Insert into a name-sorted list, keeping earlier elements first on
ties (stability of sort_by). -/
def insertByName (x : Bytes × FSNode) :
    List (Bytes × FSNode) → List (Bytes × FSNode)
  | [] => [x]
  | y :: ys =>
      if bytesLe x.1 y.1 then x :: y :: ys else y :: insertByName x ys

/-- entries.sort_by comparing file names: Rust's stable comparison sort,
modelled as insertion sort (extensionally equal for the total byte-wise
comparator). -/
def sortByName : List (Bytes × FSNode) → List (Bytes × FSNode)
  | [] => []
  | x :: xs => insertByName x (sortByName xs)

theorem insertByName_perm (x : Bytes × FSNode)
    (l : List (Bytes × FSNode)) : (insertByName x l).Perm (x :: l) := by
  induction l with
  | nil => exact List.Perm.refl _
  | cons y ys ih =>
      simp only [insertByName]
      by_cases h : bytesLe x.1 y.1
      · simp [h]
      · simp only [h, if_false]
        exact (ih.cons y).trans (List.Perm.swap x y ys)

theorem sortByName_perm (l : List (Bytes × FSNode)) :
    (sortByName l).Perm l := by
  induction l with
  | nil => exact List.Perm.refl _
  | cons x xs ih =>
      exact (insertByName_perm x (sortByName xs)).trans (ih.cons x)

/-- The name ordering on entries, as a Prop. -/
def nameLe (a b : Bytes × FSNode) : Prop := bytesLe a.1 b.1 = true

theorem insertByName_sorted {l : List (Bytes × FSNode)}
    (hs : l.Sorted nameLe) (x : Bytes × FSNode) :
    (insertByName x l).Sorted nameLe := by
  induction l with
  | nil => simp [insertByName, List.Sorted]
  | cons y ys ih =>
      simp only [insertByName]
      by_cases h : bytesLe x.1 y.1
      · simp only [h, if_true]
        refine List.sorted_cons.mpr ⟨?_, hs⟩
        intro b hb
        rcases List.mem_cons.mp hb with hb1 | hb1
        · subst hb1; exact h
        · exact bytesLe_trans h ((List.sorted_cons.mp hs).1 b hb1)
      · simp only [h, if_false]
        have hyx : bytesLe y.1 x.1 = true := by
          rcases bytesLe_total x.1 y.1 with h1 | h1
          · exact absurd h1 h
          · exact h1
        have hys := (List.sorted_cons.mp hs).2
        refine List.sorted_cons.mpr ⟨?_, ih hys⟩
        intro b hb
        rcases List.mem_cons.mp ((insertByName_perm x ys).mem_iff.mp hb)
          with hb1 | hb1
        · subst hb1; exact hyx
        · exact (List.sorted_cons.mp hs).1 b hb1

theorem sortByName_sorted (l : List (Bytes × FSNode)) :
    (sortByName l).Sorted nameLe := by
  induction l with
  | nil => simp [sortByName, List.Sorted]
  | cons x xs ih => exact insertByName_sorted ih x

theorem sizeOf_filterMap_collectF_le
    (l : List (Option (Bytes × FSNode))) :
    sizeOf (l.filterMap collectF) ≤ sizeOf l := by
  induction l with
  | nil => simp
  | cons x xs ih =>
      cases x with
      | none =>
          simp only [List.filterMap_cons, collectF]
          simp only [List.cons.sizeOf_spec]
          omega
      | some entry =>
          simp only [List.filterMap_cons, collectF]
          by_cases h : entry.1 = dotGitBytes
          · simp only [h, ne_eq, not_true_eq_false, if_false]
            simp only [List.cons.sizeOf_spec]
            omega
          · simp only [ne_eq, h, not_false_eq_true, if_true]
            simp only [List.cons.sizeOf_spec, Option.some.sizeOf_spec]
            omega

theorem sizeOf_sortByName_collect_le
    (l : List (Option (Bytes × FSNode))) :
    sizeOf (sortByName (collectEntries l)) ≤ sizeOf l := by
  have h1 : sizeOf (sortByName (collectEntries l)) =
      sizeOf (collectEntries l) :=
    (sortByName_perm (collectEntries l)).sizeOf_eq_sizeOf
  rw [h1, collectEntries_eq]
  exact sizeOf_filterMap_collectF_le l

mutual

/-- write_tree's per-directory body: gather readable entries other than
".git", sort by name, process children in sorted order, return none for
empty tree content, else write the tree object and return its hash. -/
def writeTreeDir (st : Store)
    (listing : List (Option (Bytes × FSNode))) : Store × Option Bytes :=
  let sorted := sortByName (collectEntries listing)
  let pc := processChildren st sorted
  if pc.2 = [] then (pc.1, none)
  else
    let w := Object.write pc.1 .tree pc.2
    (w.1, some w.2)
termination_by 2 * sizeOf listing + 1
decreasing_by
  have := sizeOf_sortByName_collect_le listing
  omega

/-- The for-loop over sorted entries: recurse on a directory and omit it
when the recursion returns none, write a blob for a file, and append
"<mode> <name>\x00<20 raw hash bytes>" per emitted entry. -/
def processChildren (st : Store) :
    List (Bytes × FSNode) → Store × Bytes
  | [] => (st, [])
  | (name, FSNode.dir cs) :: rest =>
      let w := writeTreeDir st cs
      let entry :=
        match w.2 with
        | none => []
        | some h => strBytes "40000 " ++ name ++ [0] ++ h
      let r := processChildren w.1 rest
      (r.1, entry ++ r.2)
  | (name, FSNode.file content) :: rest =>
      let w := Object.write st .blob content
      let entry := strBytes "100644 " ++ name ++ [0] ++ w.2
      let r := processChildren w.1 rest
      (r.1, entry ++ r.2)
termination_by l => 2 * sizeOf l
decreasing_by
  · simp only [List.cons.sizeOf_spec, Prod.mk.sizeOf_spec,
      FSNode.dir.sizeOf_spec]
    omega
  · simp only [List.cons.sizeOf_spec]
    omega
  · simp only [List.cons.sizeOf_spec]
    omega

end

inductive TreeErr
  | notADirectory
deriving DecidableEq

/-- write_tree's entry point: anyhow::ensure!(path.is_dir()) fails on a
file, otherwise build the directory's tree. -/
def write_tree (st : Store) (node : FSNode) :
    Except TreeErr (Store × Option Bytes) :=
  match node with
  | .file _ => .error .notADirectory
  | .dir listing => .ok (writeTreeDir st listing)

mutual

/-- A node transitively containing no file anywhere. -/
def noFilesNode : FSNode → Bool
  | .file _ => false
  | .dir listing => noFilesListing listing

def noFilesListing : List (Option (Bytes × FSNode)) → Bool
  | [] => true
  | none :: rest => noFilesListing rest
  | some (_, node) :: rest => noFilesNode node && noFilesListing rest

end

/-! ## Tree-entry iteration (the ls-tree loop) -/

theorem readUntil0_append (s : Bytes) :
    (readUntil0 s).1 ++ (readUntil0 s).2 = s := by
  induction s with
  | nil => rfl
  | cons b bs ih =>
      by_cases h : b = 0
      · simp [readUntil0, h]
      · simp [readUntil0, h]
        exact ih

theorem readUntil0_fst_nil_iff (s : Bytes) :
    (readUntil0 s).1 = [] ↔ s = [] := by
  cases s with
  | nil => simp [readUntil0]
  | cons b bs =>
      by_cases h : b = 0 <;> simp [readUntil0, h]

inductive TreeIterErr
  | malformedTreeEntry
deriving DecidableEq

/-- The ls-tree loop over a tree object's payload: read_until(0) (break
when it returns zero bytes), read_exact 20 raw hash bytes (short read is
an error), strip the trailing null with split_last, split the text at
the first space into mode and name (a missing name is an error), and
continue with the remaining payload. -/
def parseTreeEntries (stream : Bytes) :
    Except TreeIterErr (List (Bytes × Bytes × Bytes)) :=
  if h : (readUntil0 stream).1 = [] then .ok []
  else
    let rest := (readUntil0 stream).2
    if rest.length < 20 then .error .malformedTreeEntry
    else
      match splitLast? (readUntil0 stream).1 with
      | none => .error .malformedTreeEntry
      | some (withoutNull, _) =>
          match splitOnceSpace withoutNull with
          | none => .error .malformedTreeEntry
          | some (mode, name) =>
              match parseTreeEntries (rest.drop 20) with
              | .error e => .error e
              | .ok entries => .ok ((mode, name, rest.take 20) :: entries)
termination_by stream.length
decreasing_by
  have ha := readUntil0_append stream
  have hl : (readUntil0 stream).1.length + (readUntil0 stream).2.length
      = stream.length := by
    rw [← List.length_append, ha]
  have h1 : (readUntil0 stream).1.length ≠ 0 :=
    fun hh => h (List.length_eq_zero.mp hh)
  simp only [List.length_drop]
  omega

/-! ## Commit payload assembly (commit-tree) -/

def authorLine : Bytes :=
  strBytes "author wtlin1228 <wtlin1228@gmail.com> 1717228746 +0800"

def committerLine : Bytes :=
  strBytes "committer wtlin1228 <wtlin1228@gmail.com> 1717228746 +0800"

/-- Command::CommitTree's content assembly: "tree <t>\n", an optional
"parent <p>\n", the fixed author and committer lines, a blank line, then
the message and a final newline. -/
def assembleCommitPayload (tree : Bytes) (parent : Option Bytes)
    (message : Bytes) : Bytes :=
  strBytes "tree " ++ tree ++ [10]
  ++ (match parent with
      | some p => strBytes "parent " ++ p ++ [10]
      | none => [])
  ++ authorLine ++ [10]
  ++ committerLine ++ [10]
  ++ [10]
  ++ message ++ [10]

/-- Split a byte sequence into newline-separated segments; a trailing
newline yields a final empty segment. -/
def splitLines : Bytes → List Bytes
  | [] => [[]]
  | b :: rest =>
      if b = 10 then [] :: splitLines rest
      else
        match splitLines rest with
        | [] => [[b]]
        | l :: ls => (b :: l) :: ls

/-! ## Lemmas about the codec building blocks -/

theorem sha1_length (m : Bytes) : (sha1 m).length = 20 := by
  simp [sha1, wordBytes]

theorem sha1_bytes_lt (m : Bytes) : ∀ b ∈ sha1 m, b < 256 := by
  intro b hb
  simp only [sha1, wordBytes, List.mem_append, List.mem_cons,
    List.not_mem_nil, or_false, or_assoc] at hb
  rcases hb with h|h|h|h|h|h|h|h|h|h|h|h|h|h|h|h|h|h|h|h <;>
    subst h <;> exact Nat.mod_lt _ (by omega)

theorem hexEncode_cons (b : Nat) (bs : Bytes) :
    hexEncode (b :: bs) =
      hexDigit (b / 16) :: hexDigit (b % 16) :: hexEncode bs := rfl

theorem hexEncode_length (bs : Bytes) :
    (hexEncode bs).length = 2 * bs.length := by
  induction bs with
  | nil => rfl
  | cons b bs ih => simp [hexEncode_cons, ih]; omega

theorem hexDigit_le (n : Nat) (h : n ≤ 15) : hexDigit n ≤ 127 := by
  unfold hexDigit
  split <;> omega

theorem hexEncode_ascii (bs : Bytes) (hb : ∀ b ∈ bs, b < 256) :
    ∀ c ∈ hexEncode bs, c ≤ 127 := by
  induction bs with
  | nil => intro c hc; simp [hexEncode] at hc
  | cons b bs ih =>
      intro c hc
      have hblt : b < 256 := hb b (List.mem_cons_self b bs)
      rw [hexEncode_cons] at hc
      rcases List.mem_cons.mp hc with h | hc2
      · subst h; exact hexDigit_le _ (by omega)
      · rcases List.mem_cons.mp hc2 with h | hc3
        · subst h; exact hexDigit_le _ (by omega)
        · exact ih (fun x hx => hb x (List.mem_cons_of_mem b hx)) c hc3

theorem isCharBoundary2_of_ascii (bs : Bytes) (hlen : 2 ≤ bs.length)
    (ha : ∀ b ∈ bs, b ≤ 127) : isCharBoundary2 bs = true := by
  unfold isCharBoundary2
  rw [if_neg (by omega)]
  cases hd : bs.drop 2 with
  | nil => rfl
  | cons b rest =>
      have hmem : b ∈ bs := by
        have : b ∈ bs.drop 2 := by rw [hd]; exact List.mem_cons_self b rest
        exact List.mem_of_mem_drop this
      have := ha b hmem
      simp [this]

theorem storeLookup_insert (st : Store) (p v : Bytes) :
    storeLookup (storeInsert st p v) p = some v := by
  simp [storeLookup, storeInsert, List.find?_cons_of_pos]

theorem natDigitsAux_digits :
    ∀ fuel n, ∀ b ∈ natDigitsAux fuel n, 48 ≤ b ∧ b ≤ 57 := by
  intro fuel
  induction fuel with
  | zero => intro n b hb; simp [natDigitsAux] at hb
  | succ f ih =>
      intro n b hb
      cases n with
      | zero => simp [natDigitsAux] at hb
      | succ m =>
          simp only [natDigitsAux, List.mem_append, List.mem_cons,
            List.not_mem_nil, or_false] at hb
          rcases hb with h | h
          · exact ih _ b h
          · subst h
            have := Nat.mod_lt (m + 1) (y := 10) (by omega)
            omega

theorem decimalBytes_digits (n : Nat) :
    ∀ b ∈ decimalBytes n, 48 ≤ b ∧ b ≤ 57 := by
  intro b hb
  unfold decimalBytes at hb
  by_cases h : n = 0
  · simp [h] at hb; omega
  · rw [if_neg h] at hb
    exact natDigitsAux_digits n n b hb

theorem natDigitsAux_ne_nil (fuel n : Nat) (h0 : 0 < n) (hf : n ≤ fuel) :
    natDigitsAux fuel n ≠ [] := by
  cases fuel with
  | zero => omega
  | succ f =>
      cases n with
      | zero => omega
      | succ m => simp [natDigitsAux]

theorem readUntil0_no_zero (x rest : Bytes) (hx : 0 ∉ x) :
    readUntil0 (x ++ 0 :: rest) = (x ++ [0], rest) := by
  induction x with
  | nil => simp [readUntil0]
  | cons b bs ih =>
      have hb : b ≠ 0 := fun h => hx (h ▸ List.mem_cons_self b bs)
      have hbs : 0 ∉ bs := fun h => hx (List.mem_cons_of_mem b h)
      rw [List.cons_append]
      simp only [readUntil0]
      rw [if_neg hb, ih hbs]
      simp

theorem splitLast?_append (x : Bytes) (b : Nat) :
    splitLast? (x ++ [b]) = some (x, b) := by
  induction x with
  | nil => rfl
  | cons a x ih =>
      cases x with
      | nil => rfl
      | cons c x2 =>
          simp only [List.cons_append] at ih ⊢
          rw [splitLast?, ih]

theorem utf8Valid_ascii (bs : Bytes) (h : ∀ b ∈ bs, b ≤ 127) :
    utf8Valid bs = true := by
  induction bs with
  | nil => rfl
  | cons b rest ih =>
      have hb : b ≤ 127 := h b (List.mem_cons_self b rest)
      have step : utf8Step 0 b = 0 := by simp [utf8Step, hb]
      unfold utf8Valid at ih ⊢
      rw [List.foldl_cons, step]
      exact ih (fun x hx => h x (List.mem_cons_of_mem b hx))

theorem splitOnceSpace_no_space (m rest : Bytes) (hm : 32 ∉ m) :
    splitOnceSpace (m ++ 32 :: rest) = some (m, rest) := by
  induction m with
  | nil => simp [splitOnceSpace]
  | cons b bs ih =>
      have hb : b ≠ 32 := fun h => hm (h ▸ List.mem_cons_self b bs)
      have hbs : 32 ∉ bs := fun h => hm (List.mem_cons_of_mem b h)
      rw [List.cons_append]
      simp only [splitOnceSpace]
      rw [if_neg hb, ih hbs]

theorem natDigitsAux_foldl :
    ∀ fuel n acc, n ≤ fuel →
      (natDigitsAux fuel n).foldl (fun a b => a * 10 + (b - 48)) acc
        = acc * 10 ^ (natDigitsAux fuel n).length + n := by
  intro fuel
  induction fuel with
  | zero =>
      intro n acc h
      have : n = 0 := by omega
      subst this
      simp [natDigitsAux]
  | succ f ih =>
      intro n acc h
      cases n with
      | zero => simp [natDigitsAux]
      | succ m =>
          have hdiv : (m + 1) / 10 ≤ f := by
            have := Nat.div_lt_self (Nat.succ_pos m) (by omega : 1 < 10)
            omega
          simp only [natDigitsAux, List.foldl_append, List.foldl_cons,
            List.foldl_nil, List.length_append, List.length_cons,
            List.length_nil]
          rw [ih ((m + 1) / 10) acc hdiv]
          have hm10 : (m + 1) % 10 < 10 := Nat.mod_lt _ (by omega)
          have hdm := Nat.div_add_mod (m + 1) 10
          have hsub : 48 + (m + 1) % 10 - 48 = (m + 1) % 10 := by omega
          rw [hsub, pow_succ]
          set k := (natDigitsAux f ((m + 1) / 10)).length
          set q := (m + 1) / 10
          set r := (m + 1) % 10
          have : acc * 10 ^ k * 10 = acc * (10 ^ k * 10) := by ring
          rw [← this]
          set A := acc * 10 ^ k
          omega

theorem parseU64_decimalBytes (n : Nat)
    (h : n < 18446744073709551616) :
    parseU64 (decimalBytes n) = some n := by
  by_cases h0 : n = 0
  · subst h0; decide
  · have hne : natDigitsAux n n ≠ [] := natDigitsAux_ne_nil n n (by omega) le_rfl
    unfold decimalBytes
    rw [if_neg h0]
    obtain ⟨d, tail, hd⟩ : ∃ d tail, natDigitsAux n n = d :: tail := by
      cases hnn : natDigitsAux n n with
      | nil => exact absurd hnn hne
      | cons d tail => exact ⟨d, tail, rfl⟩
    have hd48 : 48 ≤ d ∧ d ≤ 57 := by
      refine natDigitsAux_digits n n d ?_
      rw [hd]; exact List.mem_cons_self d tail
    unfold parseU64
    have hhead : (natDigitsAux n n).head? ≠ some 43 := by
      rw [hd]; simp; omega
    rw [if_neg hhead]
    rw [if_neg hne]
    have hall : (natDigitsAux n n).all (fun b => 48 ≤ b && b ≤ 57) = true := by
      rw [List.all_eq_true]
      intro b hb
      have := natDigitsAux_digits n n b hb
      simp; omega
    rw [if_pos hall]
    have hfold := natDigitsAux_foldl n n 0 le_rfl
    simp only [Nat.zero_mul, Nat.zero_add] at hfold
    rw [hfold, if_pos h]

theorem kindName_no_zero (k : Kind) : 0 ∉ k.name := by
  cases k <;> decide

theorem kindName_no_space (k : Kind) : 32 ∉ k.name := by
  cases k <;> decide

theorem kindName_ascii (k : Kind) : ∀ b ∈ k.name, b ≤ 127 := by
  cases k <;> decide

theorem kindFromBytes_name (k : Kind) : Kind.fromBytes k.name = some k := by
  cases k <;> decide

/-- Decoding the canonical stream recovers the kind, the payload length
as the expected size, and the payload itself (the declared length is
below 2^64, as any usize is). -/
theorem parseStream_canonical (k : Kind) (p : Bytes)
    (hlen : p.length < 18446744073709551616) :
    parseStream (canonicalForm k p) = .ok (k, p.length, p) := by
  have hx : (0 : Nat) ∉ k.name ++ [32] ++ decimalBytes p.length := by
    intro hmem
    rcases List.mem_append.mp hmem with hmem1 | hmem2
    · rcases List.mem_append.mp hmem1 with hmem3 | hmem4
      · exact kindName_no_zero k hmem3
      · simp at hmem4
    · have := decimalBytes_digits p.length 0 hmem2
      omega
  have hshape : canonicalForm k p =
      (k.name ++ [32] ++ decimalBytes p.length) ++ 0 :: p := by
    simp [canonicalForm]
  have hsplit : splitLast?
      ((k.name ++ [32] ++ decimalBytes p.length) ++ [0]) =
      some (k.name ++ [32] ++ decimalBytes p.length, 0) :=
    splitLast?_append _ 0
  have hvalid : utf8Valid (k.name ++ [32] ++ decimalBytes p.length) = true := by
    refine utf8Valid_ascii _ ?_
    intro b hb
    rcases List.mem_append.mp hb with hb1 | hb2
    · rcases List.mem_append.mp hb1 with hb3 | hb4
      · exact kindName_ascii k b hb3
      · simp at hb4; omega
    · have := decimalBytes_digits p.length b hb2
      omega
  have hspace : splitOnceSpace
      (k.name ++ [32] ++ decimalBytes p.length) =
      some (k.name, decimalBytes p.length) := by
    have := splitOnceSpace_no_space k.name (decimalBytes p.length)
      (kindName_no_space k)
    simpa using this
  simp only [List.append_assoc, List.cons_append, List.nil_append]
    at hsplit hvalid hspace
  rw [parseStream, hshape, readUntil0_no_zero _ _ hx]
  simp [hsplit, hvalid, hspace, parseU64_decimalBytes p.length hlen,
    kindFromBytes_name, List.take_length]

/-! ## Claim C9: propagation of listing errors in write_tree -/

/-- C9 (amended): errors from recursive write_tree calls, object writes
and file reads propagate to the caller through early returns, but a
failed read of an individual directory entry during listing is silently
skipped — the Err arm of the fold returns the accumulator unchanged —
so the produced store and tree are the same as if the unreadable entry
were absent. -/
theorem c9_listing_error_skipped (st : Store)
    (l : List (Option (Bytes × FSNode))) :
    collectEntries (Option.none :: l) = collectEntries l
    ∧ writeTreeDir st (Option.none :: l) = writeTreeDir st l := by
  have hc : collectEntries (Option.none :: l) = collectEntries l := rfl
  refine ⟨hc, ?_⟩
  simp only [writeTreeDir]
  rw [hc]

/-- C9 counterexample: a listing with a failed directory-entry read (the
none item) next to a readable file: write_tree does not abort — it
produces exactly the same outcome as the listing without the failed
entry, and still returns a tree identity. -/
theorem c9_counterexample :
    writeTreeDir []
        [Option.none, some (strBytes "a", FSNode.file (strBytes "x"))]
      = writeTreeDir [] [some (strBytes "a", FSNode.file (strBytes "x"))]
    ∧ (writeTreeDir []
        [some (strBytes "a", FSNode.file (strBytes "x"))]).2.isSome
      = true := by
  constructor
  · have hc : collectEntries
        [Option.none, some (strBytes "a", FSNode.file (strBytes "x"))]
        = collectEntries
            [some (strBytes "a", FSNode.file (strBytes "x"))] := rfl
    simp only [writeTreeDir]
    rw [hc]
  · have hsort : sortByName (collectEntries
        [some (strBytes "a", FSNode.file (strBytes "x"))])
        = [(strBytes "a", FSNode.file (strBytes "x"))] := rfl
    simp only [writeTreeDir, hsort, processChildren]
    decide

/-! ## Claim C7: the ls-tree entry-iteration loop -/

theorem c7_tree_entry_iteration :
    (∀ s : Bytes, parseTreeEntries s = .ok [] ↔ s = [])
    ∧ (∀ pre rest : Bytes, 0 ∉ pre → rest.length < 20 →
        parseTreeEntries (pre ++ 0 :: rest) = .error .malformedTreeEntry)
    ∧ (∀ pre rest m n : Bytes, 0 ∉ pre →
        splitOnceSpace pre = some (m, n) → 20 ≤ rest.length →
        parseTreeEntries (pre ++ 0 :: rest) =
          (match parseTreeEntries (rest.drop 20) with
           | .error e => .error e
           | .ok es => .ok ((m, n, rest.take 20) :: es)))
    ∧ (∀ m n : Bytes, 32 ∉ m →
        splitOnceSpace (m ++ 32 :: n) = some (m, n)) := by
  refine ⟨?_, ?_, ?_, fun m n hm => splitOnceSpace_no_space m n hm⟩
  · intro s
    constructor
    · intro hok
      by_cases hs : s = []
      · exact hs
      · exfalso
        have hbuf : ¬ (readUntil0 s).1 = [] :=
          fun hh => hs ((readUntil0_fst_nil_iff s).mp hh)
        rw [parseTreeEntries, dif_neg hbuf] at hok
        simp only [] at hok
        by_cases hL : (readUntil0 s).2.length < 20
        · rw [if_pos hL] at hok; simp at hok
        · rw [if_neg hL] at hok
          split at hok
          · simp at hok
          · split at hok
            · simp at hok
            · split at hok
              · simp at hok
              · simp at hok
    · intro hs
      subst hs
      rw [parseTreeEntries]
      simp [readUntil0]
  · intro pre rest h0 hlen
    have hbuf : readUntil0 (pre ++ 0 :: rest) = (pre ++ [0], rest) :=
      readUntil0_no_zero pre rest h0
    have hne : ¬ (readUntil0 (pre ++ 0 :: rest)).1 = [] := by
      rw [hbuf]; simp
    rw [parseTreeEntries, dif_neg hne]
    rw [hbuf]
    simp only []
    rw [if_pos hlen]
  · intro pre rest m n h0 hsp hlen
    have hbuf : readUntil0 (pre ++ 0 :: rest) = (pre ++ [0], rest) :=
      readUntil0_no_zero pre rest h0
    have hne : ¬ (readUntil0 (pre ++ 0 :: rest)).1 = [] := by
      rw [hbuf]; simp
    rw [parseTreeEntries, dif_neg hne, hbuf]
    simp only []
    rw [if_neg (by omega), splitLast?_append]
    show (match splitOnceSpace pre with
      | none => Except.error TreeIterErr.malformedTreeEntry
      | some (mode, name) =>
          match parseTreeEntries (rest.drop 20) with
          | .error e => .error e
          | .ok entries =>
              .ok ((mode, name, rest.take 20) :: entries)) = _
    rw [hsp]

/-- C7 witness: each part of the iteration contract at concrete inputs:
the empty payload ends cleanly; a truncated identity is an error; a full
entry parses into mode, space-split name and 20 raw hash bytes; a name
containing a space survives the first-space split. -/
theorem c7_witness :
    parseTreeEntries [] = .ok []
    ∧ parseTreeEntries (strBytes "100644 a" ++ 0 :: [1, 2, 3])
        = .error .malformedTreeEntry
    ∧ parseTreeEntries
        (strBytes "100644 a" ++ 0 :: List.replicate 20 7)
        = .ok [(strBytes "100644", strBytes "a", List.replicate 20 7)]
    ∧ splitOnceSpace (strBytes "40000" ++ 32 :: strBytes "a b")
        = some (strBytes "40000", strBytes "a b") := by
  refine ⟨(c7_tree_entry_iteration.1 []).mpr rfl, ?_, ?_, ?_⟩
  · exact c7_tree_entry_iteration.2.1 (strBytes "100644 a") [1, 2, 3]
      (by decide) (by decide)
  · have hstep := c7_tree_entry_iteration.2.2.1 (strBytes "100644 a")
      (List.replicate 20 7) (strBytes "100644") (strBytes "a")
      (by decide) (by decide) (by decide)
    rw [hstep]
    have hrest : (List.replicate 20 7 : Bytes).drop 20 = [] := by decide
    have htake : (List.replicate 20 7 : Bytes).take 20
        = List.replicate 20 7 := by decide
    rw [hrest, htake, (c7_tree_entry_iteration.1 []).mpr rfl]
  · exact c7_tree_entry_iteration.2.2.2 (strBytes "40000") (strBytes "a b")
      (by decide)

/-! ## Claim C8: commit payload assembly -/

theorem splitLines_append_line (a rest : Bytes) (ha : 10 ∉ a) :
    splitLines (a ++ 10 :: rest) = a :: splitLines rest := by
  induction a with
  | nil => simp [splitLines]
  | cons b bs ih =>
      have hb : b ≠ 10 := fun h => ha (h ▸ List.mem_cons_self b bs)
      have hbs : 10 ∉ bs := fun h => ha (List.mem_cons_of_mem b h)
      rw [List.cons_append]
      simp only [splitLines]
      rw [if_neg hb, ih hbs]

theorem isPrefixOf_self_append (a b : Bytes) :
    a.isPrefixOf (a ++ b) = true := by
  induction a with
  | nil => cases b <;> rfl
  | cons x xs ih => simpa [List.isPrefixOf] using ih

theorem treeLine_not_parent (t : Bytes) :
    (strBytes "parent ").isPrefixOf (strBytes "tree " ++ t) = false := by
  have h1 : strBytes "parent " = 112 :: strBytes "arent " := by decide
  have h2 : strBytes "tree " ++ t = 116 :: (strBytes "ree " ++ t) := rfl
  rw [h1, h2]
  simp [List.isPrefixOf]

/-- C8: with no parent, the assembled commit payload's lines are the
tree line, the author and committer lines, a blank separator and the
message body "init" (with a final newline); no line carries the
"parent " tag.  With a parent supplied, exactly one "parent " line
appears, directly after the tree line. -/
theorem c8_commit_payload (t p : Bytes) (ht : 10 ∉ t) (hp : 10 ∉ p) :
    splitLines (assembleCommitPayload t none (strBytes "init"))
      = [strBytes "tree " ++ t, authorLine, committerLine, [],
         strBytes "init", []]
    ∧ splitLines (assembleCommitPayload t (some p) (strBytes "init"))
      = [strBytes "tree " ++ t, strBytes "parent " ++ p, authorLine,
         committerLine, [], strBytes "init", []]
    ∧ (splitLines (assembleCommitPayload t none (strBytes "init"))).countP
        (fun l => (strBytes "parent ").isPrefixOf l) = 0
    ∧ (splitLines
        (assembleCommitPayload t (some p) (strBytes "init"))).countP
        (fun l => (strBytes "parent ").isPrefixOf l) = 1 := by
  have htree : (10 : Nat) ∉ strBytes "tree " ++ t := by
    intro hmem
    rcases List.mem_append.mp hmem with hmem1 | hmem2
    · revert hmem1; decide
    · exact ht hmem2
  have hpar : (10 : Nat) ∉ strBytes "parent " ++ p := by
    intro hmem
    rcases List.mem_append.mp hmem with hmem1 | hmem2
    · revert hmem1; decide
    · exact hp hmem2
  have hauthor : (10 : Nat) ∉ authorLine := by decide
  have hcommitter : (10 : Nat) ∉ committerLine := by decide
  have hinit : (10 : Nat) ∉ strBytes "init" := by decide
  have htail : splitLines (10 :: (strBytes "init" ++ 10 :: []))
      = [] :: [strBytes "init", []] := by
    rw [splitLines]
    rw [if_pos rfl, splitLines_append_line _ _ hinit]
    rfl
  have hshape1 : assembleCommitPayload t none (strBytes "init")
      = (strBytes "tree " ++ t) ++ 10 :: (authorLine ++ 10 ::
          (committerLine ++ 10 :: (10 :: (strBytes "init" ++ 10 :: [])))) := by
    simp [assembleCommitPayload]
  have hshape2 : assembleCommitPayload t (some p) (strBytes "init")
      = (strBytes "tree " ++ t) ++ 10 :: ((strBytes "parent " ++ p)
          ++ 10 :: (authorLine ++ 10 :: (committerLine ++ 10 ::
            (10 :: (strBytes "init" ++ 10 :: []))))) := by
    simp [assembleCommitPayload]
  have hlines1 : splitLines (assembleCommitPayload t none (strBytes "init"))
      = [strBytes "tree " ++ t, authorLine, committerLine, [],
         strBytes "init", []] := by
    rw [hshape1, splitLines_append_line _ _ htree,
      splitLines_append_line _ _ hauthor,
      splitLines_append_line _ _ hcommitter, htail]
  have hlines2 : splitLines
        (assembleCommitPayload t (some p) (strBytes "init"))
      = [strBytes "tree " ++ t, strBytes "parent " ++ p, authorLine,
         committerLine, [], strBytes "init", []] := by
    rw [hshape2, splitLines_append_line _ _ htree,
      splitLines_append_line _ _ hpar,
      splitLines_append_line _ _ hauthor,
      splitLines_append_line _ _ hcommitter, htail]
  refine ⟨hlines1, hlines2, ?_, ?_⟩
  · rw [hlines1]
    simp [List.countP_cons, treeLine_not_parent t]
    decide
  · rw [hlines2]
    simp [List.countP_cons, treeLine_not_parent t,
      isPrefixOf_self_append (strBytes "parent ") p]
    decide

/-- C8 witness: concrete newline-free tree and parent identities. -/
theorem c8_witness :
    ((10 : Nat) ∉ strBytes "abc" ∧ (10 : Nat) ∉ strBytes "def")
    ∧ splitLines (assembleCommitPayload (strBytes "abc") none
        (strBytes "init"))
      = [strBytes "tree " ++ strBytes "abc", authorLine, committerLine,
         [], strBytes "init", []]
    ∧ (splitLines (assembleCommitPayload (strBytes "abc")
        (some (strBytes "def")) (strBytes "init"))).countP
        (fun l => (strBytes "parent ").isPrefixOf l) = 1 :=
  ⟨⟨by decide, by decide⟩,
   (c8_commit_payload (strBytes "abc") (strBytes "def")
     (by decide) (by decide)).1,
   (c8_commit_payload (strBytes "abc") (strBytes "def")
     (by decide) (by decide)).2.2.2⟩

/-! ## Claim C1: content addressing (write then read round-trips) -/

/-- C1: for every kind and payload, Object::write followed by
Object::read at the returned identity yields the same kind, an expected
size equal to the payload length, and a payload reader producing exactly
the payload bytes; a second write of the same kind and payload returns
the same identity.  The payload length is below 2^64, as for any Rust
usize value. -/
theorem c1_write_read_roundtrip (st : Store) (k : Kind) (p : Bytes)
    (hlen : p.length < 18446744073709551616) :
    Object.read (Object.write st k p).1
        (hexEncode (Object.write st k p).2) = .ok k p.length p
    ∧ (Object.write (Object.write st k p).1 k p).2
        = (Object.write st k p).2 := by
  refine ⟨?_, rfl⟩
  have hw1 : (Object.write st k p).2 = sha1 (canonicalForm k p) := rfl
  have hw2 : (Object.write st k p).1 =
      storeInsert st (objectPath (hexEncode (sha1 (canonicalForm k p))))
        (canonicalForm k p) := rfl
  rw [hw1, hw2]
  have hlen40 : (hexEncode (sha1 (canonicalForm k p))).length = 40 := by
    rw [hexEncode_length, sha1_length]
  have hascii : ∀ c ∈ hexEncode (sha1 (canonicalForm k p)), c ≤ 127 :=
    hexEncode_ascii _ (sha1_bytes_lt _)
  have hbd : isCharBoundary2 (hexEncode (sha1 (canonicalForm k p))) = true :=
    isCharBoundary2_of_ascii _ (by omega) hascii
  rw [Object.read]
  rw [if_pos hbd]
  show (match storeLookup
      (storeInsert st (objectPath (hexEncode (sha1 (canonicalForm k p))))
        (canonicalForm k p))
      (strBytes ".git/objects/"
        ++ (hexEncode (sha1 (canonicalForm k p))).take 2 ++ [47]
        ++ (hexEncode (sha1 (canonicalForm k p))).drop 2) with
    | none => ReadResult.error ReadErr.notFound
    | some stream =>
        match parseStream stream with
        | .error e => ReadResult.error e
        | .ok (kind, size, payload) => ReadResult.ok kind size payload)
    = ReadResult.ok k p.length p
  have hpath : strBytes ".git/objects/"
      ++ (hexEncode (sha1 (canonicalForm k p))).take 2 ++ [47]
      ++ (hexEncode (sha1 (canonicalForm k p))).drop 2
      = objectPath (hexEncode (sha1 (canonicalForm k p))) := by
    simp [objectPath]
  rw [hpath, storeLookup_insert]
  simp [parseStream_canonical k p hlen]

/-- C1 witness: a concrete round-trip at kind blob with payload
"world". -/
theorem c1_witness :
    (strBytes "world").length < 18446744073709551616
    ∧ (Object.read (Object.write [] Kind.blob (strBytes "world")).1
          (hexEncode (Object.write [] Kind.blob (strBytes "world")).2)
        = .ok Kind.blob (strBytes "world").length (strBytes "world")
      ∧ (Object.write (Object.write [] Kind.blob (strBytes "world")).1
            Kind.blob (strBytes "world")).2
          = (Object.write [] Kind.blob (strBytes "world")).2) :=
  ⟨by decide, c1_write_read_roundtrip [] Kind.blob (strBytes "world")
    (by decide)⟩

/-! ## Claim C2: identity is the SHA-1 of the canonical form; the
storage path is a pure function of the identity -/

/-- C2: Object::write returns the SHA-1 digest of the canonical form
"<kind-name> <decimal-payload-length>" ++ NUL ++ payload, stores the
object at ".git/objects/<first 2 hex chars>/<remaining 38 hex chars>" of
the 40-hex-character identity, and Object::read resolves the stored
path with the same 2/38 split whenever byte index 2 of the identity is a
char boundary (as it is for any hex identity). -/
theorem c2_identity_and_path (st : Store) (k : Kind) (p : Bytes) :
    (Object.write st k p).2 = sha1 (canonicalForm k p)
    ∧ (Object.write st k p).1 =
        storeInsert st
          (objectPath (hexEncode (sha1 (canonicalForm k p))))
          (canonicalForm k p)
    ∧ (hexEncode (Object.write st k p).2).length = 40
    ∧ objectPath (hexEncode (Object.write st k p).2) =
        strBytes ".git/objects/"
          ++ (hexEncode (Object.write st k p).2).take 2 ++ [47]
          ++ (hexEncode (Object.write st k p).2).drop 2
    ∧ ((hexEncode (Object.write st k p).2).take 2).length = 2
    ∧ ((hexEncode (Object.write st k p).2).drop 2).length = 38
    ∧ ∀ (h v : Bytes), isCharBoundary2 h = true →
        storeLookup st (objectPath h) = some v →
        Object.read st h =
          (match parseStream v with
           | .error e => ReadResult.error e
           | .ok (kk, s, pl) => ReadResult.ok kk s pl) := by
  have hlen40 : (hexEncode (Object.write st k p).2).length = 40 := by
    show (hexEncode (sha1 (canonicalForm k p))).length = 40
    rw [hexEncode_length, sha1_length]
  refine ⟨rfl, rfl, hlen40, by simp [objectPath], ?_, ?_, ?_⟩
  · rw [List.length_take, hlen40]; omega
  · rw [List.length_drop, hlen40]
  · intro h v hbd hlook
    rw [Object.read, if_pos hbd]
    show (match storeLookup st
        (strBytes ".git/objects/" ++ h.take 2 ++ [47] ++ h.drop 2) with
      | none => ReadResult.error ReadErr.notFound
      | some stream =>
          match parseStream stream with
          | .error e => ReadResult.error e
          | .ok (kind, size, payload) => ReadResult.ok kind size payload)
      = _
    have hpath : strBytes ".git/objects/" ++ h.take 2 ++ [47] ++ h.drop 2
        = objectPath h := by simp [objectPath]
    rw [hpath, hlook]

/-- C2 witness: concrete payload, and a concrete resolved read. -/
theorem c2_witness :
    ((Object.write [] Kind.blob (strBytes "world")).2
        = sha1 (canonicalForm Kind.blob (strBytes "world"))
      ∧ (hexEncode (Object.write [] Kind.blob (strBytes "world")).2).length
        = 40)
    ∧ isCharBoundary2 (strBytes "abcd") = true
    ∧ storeLookup [(objectPath (strBytes "abcd"), strBytes "tree 0" ++ [0])]
        (objectPath (strBytes "abcd")) = some (strBytes "tree 0" ++ [0])
    ∧ Object.read [(objectPath (strBytes "abcd"), strBytes "tree 0" ++ [0])]
        (strBytes "abcd") =
        (match parseStream (strBytes "tree 0" ++ [0]) with
         | .error e => ReadResult.error e
         | .ok (kk, s, pl) => ReadResult.ok kk s pl) := by
  have hmain := c2_identity_and_path []
    Kind.blob (strBytes "world")
  refine ⟨⟨hmain.1, hmain.2.2.1⟩, by decide, by decide, ?_⟩
  have happ := (c2_identity_and_path
    [(objectPath (strBytes "abcd"), strBytes "tree 0" ++ [0])]
    Kind.blob (strBytes "world")).2.2.2.2.2.2
  exact happ (strBytes "abcd") (strBytes "tree 0" ++ [0])
    (by decide) (by decide)

/-! ## Claim C4: empty-subtree omission -/

theorem collectF_eq_some {x : Option (Bytes × FSNode)}
    {e : Bytes × FSNode} (h : collectF x = some e) : x = some e := by
  cases x with
  | none => simp [collectF] at h
  | some entry =>
      simp only [collectF] at h
      split at h
      · rw [Option.some.inj h]
      · exact Option.noConfusion h

theorem noFilesListing_mem {l : List (Option (Bytes × FSNode))}
    {name : Bytes} {node : FSNode} (hl : noFilesListing l = true)
    (hmem : some (name, node) ∈ l) : noFilesNode node = true := by
  induction l with
  | nil => simp at hmem
  | cons x rest ih =>
      cases x with
      | none =>
          rcases List.mem_cons.mp hmem with h1 | h1
          · exact Option.noConfusion h1
          · exact ih (by simpa [noFilesListing] using hl) h1
      | some pr =>
          obtain ⟨n2, nd2⟩ := pr
          simp only [noFilesListing, Bool.and_eq_true] at hl
          rcases List.mem_cons.mp hmem with h1 | h1
          · have hpair := Option.some.inj h1
            have hnd : node = nd2 := congrArg Prod.snd hpair
            rw [hnd]
            exact hl.1
          · exact ih hl.2 h1

theorem noFiles_writeTreeDir_aux :
    ∀ (N : Nat) (l : List (Option (Bytes × FSNode))), sizeOf l ≤ N →
      noFilesListing l = true → ∀ st, writeTreeDir st l = (st, none) := by
  intro N
  induction N with
  | zero =>
      intro l hsz
      exfalso
      cases l <;> simp at hsz
  | succ N ih =>
      intro l hsz hnf st
      have hmem : ∀ e ∈ sortByName (collectEntries l),
          ∃ cs, e.2 = FSNode.dir cs ∧ noFilesListing cs = true
            ∧ sizeOf cs ≤ N := by
        intro e he
        have he2 : e ∈ collectEntries l :=
          ((sortByName_perm _).mem_iff).mp he
        rw [collectEntries_eq] at he2
        obtain ⟨x, hx, hfx⟩ := List.mem_filterMap.mp he2
        have hxe : x = some e := collectF_eq_some hfx
        subst hxe
        obtain ⟨name, node⟩ := e
        have hnode : noFilesNode node = true := noFilesListing_mem hnf hx
        cases node with
        | file c => simp [noFilesNode] at hnode
        | dir cs =>
            refine ⟨cs, rfl, by simpa [noFilesNode] using hnode, ?_⟩
            have hlt := List.sizeOf_lt_of_mem hx
            simp only [Option.some.sizeOf_spec, Prod.mk.sizeOf_spec,
              FSNode.dir.sizeOf_spec] at hlt
            omega
      have hproc : ∀ (l2 : List (Bytes × FSNode)),
          (∀ e ∈ l2, ∃ cs, e.2 = FSNode.dir cs ∧ noFilesListing cs = true
            ∧ sizeOf cs ≤ N) →
          ∀ st2, processChildren st2 l2 = (st2, []) := by
        intro l2
        induction l2 with
        | nil => intro _ st2; simp [processChildren]
        | cons e rest ih2 =>
            intro hall st2
            obtain ⟨name, node⟩ := e
            obtain ⟨cs, hnode, hnf2, hsz2⟩ :=
              hall _ (List.mem_cons_self _ _)
            simp only [] at hnode
            subst hnode
            have hrec := ih cs hsz2 hnf2 st2
            have hrest := ih2
              (fun e2 he2 => hall e2 (List.mem_cons_of_mem _ he2)) st2
            simp [processChildren, hrec, hrest]
      have hp := hproc _ hmem st
      simp [writeTreeDir, hp]

/-- C4: a directory that transitively contains no files yields none from
write_tree — the store is left exactly unchanged, so no object is
written for it; a parent's loop emits no entry for such a subdirectory;
and a directory holding exactly one empty subdirectory and one file
produces a tree payload consisting of exactly the file's entry. -/
theorem c4_empty_subtree_omission :
    (∀ (st : Store) (l : List (Option (Bytes × FSNode))),
        noFilesListing l = true → writeTreeDir st l = (st, none))
    ∧ (∀ (st : Store) (l : List (Option (Bytes × FSNode))),
        noFilesListing l = true →
        write_tree st (FSNode.dir l) = .ok (st, none))
    ∧ (∀ (st : Store) (name : Bytes)
        (cs : List (Option (Bytes × FSNode)))
        (rest : List (Bytes × FSNode)), noFilesListing cs = true →
        processChildren st ((name, FSNode.dir cs) :: rest)
          = processChildren st rest)
    ∧ (∀ (st : Store) (n1 n2 c : Bytes),
        n1 ≠ dotGitBytes → n2 ≠ dotGitBytes →
        (processChildren st (sortByName (collectEntries
            [some (n1, FSNode.dir []), some (n2, FSNode.file c)]))).2
          = strBytes "100644 " ++ n2 ++ [0]
            ++ (Object.write st Kind.blob c).2) := by
  have hmain : ∀ (st : Store) (l : List (Option (Bytes × FSNode))),
      noFilesListing l = true → writeTreeDir st l = (st, none) :=
    fun st l hl => noFiles_writeTreeDir_aux (sizeOf l) l le_rfl hl st
  have hnil : ∀ st : Store, writeTreeDir st [] = (st, none) :=
    fun st => hmain st [] rfl
  refine ⟨hmain, ?_, ?_, ?_⟩
  · intro st l hl
    simp only [write_tree, hmain st l hl]
  · intro st name cs rest hnf
    have hrec := hmain st cs hnf
    simp [processChildren, hrec]
  · intro st n1 n2 c h1 h2
    have hcol : collectEntries
        [some (n1, FSNode.dir []), some (n2, FSNode.file c)]
        = [(n1, FSNode.dir []), (n2, FSNode.file c)] := by
      rw [collectEntries_eq]
      simp [collectF, h1, h2]
    rw [hcol]
    have hsort : sortByName [(n1, FSNode.dir []), (n2, FSNode.file c)]
        = insertByName (n1, FSNode.dir []) [(n2, FSNode.file c)] := rfl
    rw [hsort]
    by_cases hle : bytesLe n1 n2
    · have hins : insertByName (n1, FSNode.dir [])
          [(n2, FSNode.file c)]
          = [(n1, FSNode.dir []), (n2, FSNode.file c)] := by
        simp [insertByName, hle]
      rw [hins]
      simp [processChildren, hnil st]
    · have hins : insertByName (n1, FSNode.dir [])
          [(n2, FSNode.file c)]
          = [(n2, FSNode.file c), (n1, FSNode.dir [])] := by
        simp [insertByName, hle]
      rw [hins]
      simp [processChildren, hnil]

/-- C4 witness: a directory holding only an empty subdirectory
vanishes; the one-empty-subdirectory-plus-one-file payload has exactly
the file entry. -/
theorem c4_witness :
    (noFilesListing [some (strBytes "d", FSNode.dir [])] = true
      ∧ writeTreeDir [] [some (strBytes "d", FSNode.dir [])] = ([], none))
    ∧ (strBytes "d" ≠ dotGitBytes ∧ strBytes "f" ≠ dotGitBytes
      ∧ (processChildren [] (sortByName (collectEntries
          [some (strBytes "d", FSNode.dir []),
           some (strBytes "f", FSNode.file (strBytes "x"))]))).2
        = strBytes "100644 " ++ strBytes "f" ++ [0]
          ++ (Object.write [] Kind.blob (strBytes "x")).2) := by
  have hnf : noFilesListing [some (strBytes "d", FSNode.dir [])] = true := by
    simp [noFilesListing, noFilesNode]
  refine ⟨⟨hnf, c4_empty_subtree_omission.1 [] _ hnf⟩,
    by decide, by decide, ?_⟩
  exact c4_empty_subtree_omission.2.2.2 [] (strBytes "d") (strBytes "f")
    (strBytes "x") (by decide) (by decide)

/-! ## Claim C3: sort determinism of build_tree -/

/-- One tree entry rendered as "<mode> <name>" ++ NUL ++ <hash>. -/
def renderEntryBytes (t : Bytes × Bytes × Bytes) : Bytes :=
  t.1 ++ [32] ++ t.2.1 ++ [0] ++ t.2.2

theorem processChildren_decomp (l : List (Bytes × FSNode)) :
    ∀ st, ∃ trips : List (Bytes × Bytes × Bytes),
      (processChildren st l).2 = (trips.map renderEntryBytes).flatten
      ∧ (trips.map (fun t => t.2.1)).Sublist (l.map Prod.fst) := by
  induction l with
  | nil =>
      intro st
      exact ⟨[], by simp [processChildren], by simp⟩
  | cons e rest ih =>
      intro st
      obtain ⟨name, node⟩ := e
      cases node with
      | dir cs =>
          obtain ⟨trips, hcontent, hsub⟩ := ih (writeTreeDir st cs).1
          cases hw : (writeTreeDir st cs).2 with
          | none =>
              refine ⟨trips, ?_, hsub.cons name⟩
              simp [processChildren, hw, hcontent]
          | some h =>
              refine ⟨(strBytes "40000", name, h) :: trips, ?_,
                hsub.cons₂ name⟩
              have hm : strBytes "40000 " = strBytes "40000" ++ [32] := by
                decide
              simp [processChildren, hw, hcontent, renderEntryBytes, hm]
      | file c =>
          obtain ⟨trips, hcontent, hsub⟩ :=
            ih (Object.write st Kind.blob c).1
          refine ⟨(strBytes "100644", name,
            (Object.write st Kind.blob c).2) :: trips, ?_,
            hsub.cons₂ name⟩
          have hm : strBytes "100644 " = strBytes "100644" ++ [32] := by
            decide
          simp [processChildren, hcontent, renderEntryBytes, hm]

/-- C3: build_tree's sibling ordering is determined before recursion:
for any two filesystem listing orders of the same entries (with distinct
names, as in any real directory) write_tree produces identical results,
and the tree payload decomposes into entries whose names appear in
byte-wise ascending order. -/
theorem c3_sort_determinism :
    (∀ (st : Store) (l1 l2 : List (Option (Bytes × FSNode))),
        l1.Perm l2 →
        ((collectEntries l1).map Prod.fst).Nodup →
        writeTreeDir st l1 = writeTreeDir st l2)
    ∧ (∀ (st : Store) (l : List (Option (Bytes × FSNode))),
        ∃ trips : List (Bytes × Bytes × Bytes),
          (processChildren st (sortByName (collectEntries l))).2
            = (trips.map renderEntryBytes).flatten
          ∧ List.Pairwise (fun a b => bytesLe a b = true)
              (trips.map (fun t => t.2.1))) := by
  constructor
  · intro st l1 l2 hperm hnodup
    have hc : (collectEntries l1).Perm (collectEntries l2) := by
      rw [collectEntries_eq, collectEntries_eq]
      exact hperm.filterMap collectF
    have hnodup2 : ((collectEntries l2).map Prod.fst).Nodup :=
      (hc.map Prod.fst).nodup_iff.mp hnodup
    have hnods1 : ((sortByName (collectEntries l1)).map Prod.fst).Nodup :=
      ((sortByName_perm _).map Prod.fst).nodup_iff.mpr hnodup
    have hnods2 : ((sortByName (collectEntries l2)).map Prod.fst).Nodup :=
      ((sortByName_perm _).map Prod.fst).nodup_iff.mpr hnodup2
    have hpairne1 : (sortByName (collectEntries l1)).Pairwise
        (fun a b => a.1 ≠ b.1) := List.pairwise_map.mp hnods1
    have hpairne2 : (sortByName (collectEntries l2)).Pairwise
        (fun a b => a.1 ≠ b.1) := List.pairwise_map.mp hnods2
    have hsortperm : (sortByName (collectEntries l1)).Perm
        (sortByName (collectEntries l2)) :=
      ((sortByName_perm _).trans hc).trans (sortByName_perm _).symm
    haveI : IsAntisymm (Bytes × FSNode)
        (fun a b => nameLe a b ∧ a.1 ≠ b.1) :=
      ⟨fun _ _ hab hba => absurd (bytesLe_antisymm hab.1 hba.1) hab.2⟩
    have hsorteq : sortByName (collectEntries l1)
        = sortByName (collectEntries l2) :=
      List.eq_of_perm_of_sorted hsortperm
        ((sortByName_sorted _).and hpairne1)
        ((sortByName_sorted _).and hpairne2)
    simp only [writeTreeDir]
    rw [hsorteq]
  · intro st l
    obtain ⟨trips, hcontent, hsub⟩ :=
      processChildren_decomp (sortByName (collectEntries l)) st
    refine ⟨trips, hcontent, ?_⟩
    have hsorted : ((sortByName (collectEntries l)).map Prod.fst).Pairwise
        (fun a b => bytesLe a b = true) :=
      List.pairwise_map.mpr (sortByName_sorted _)
    exact List.Pairwise.sublist hsub hsorted

/-- C3 witness: two listing orders of the same two entries produce the
same tree result, and the sorted payload decomposition at a concrete
directory. -/
theorem c3_witness :
    ([some (strBytes "b", FSNode.file (strBytes "x")),
      some (strBytes "a", FSNode.file (strBytes "y"))].Perm
      [some (strBytes "a", FSNode.file (strBytes "y")),
       some (strBytes "b", FSNode.file (strBytes "x"))]
     ∧ ((collectEntries [some (strBytes "b", FSNode.file (strBytes "x")),
          some (strBytes "a", FSNode.file (strBytes "y"))]).map
          Prod.fst).Nodup)
    ∧ writeTreeDir [] [some (strBytes "b", FSNode.file (strBytes "x")),
        some (strBytes "a", FSNode.file (strBytes "y"))]
      = writeTreeDir [] [some (strBytes "a", FSNode.file (strBytes "y")),
          some (strBytes "b", FSNode.file (strBytes "x"))]
    ∧ ∃ trips : List (Bytes × Bytes × Bytes),
        (processChildren []
          (sortByName (collectEntries
            [some (strBytes "b", FSNode.file (strBytes "x")),
             some (strBytes "a", FSNode.file (strBytes "y"))]))).2
          = (trips.map renderEntryBytes).flatten
        ∧ List.Pairwise (fun a b => bytesLe a b = true)
            (trips.map (fun t => t.2.1)) := by
  have hperm : [some (strBytes "b", FSNode.file (strBytes "x")),
      some (strBytes "a", FSNode.file (strBytes "y"))].Perm
      [some (strBytes "a", FSNode.file (strBytes "y")),
       some (strBytes "b", FSNode.file (strBytes "x"))] :=
    List.Perm.swap _ _ _
  have hnodup : ((collectEntries
      [some (strBytes "b", FSNode.file (strBytes "x")),
       some (strBytes "a", FSNode.file (strBytes "y"))]).map
      Prod.fst).Nodup := by decide
  exact ⟨⟨hperm, hnodup⟩,
    c3_sort_determinism.1 [] _ _ hperm hnodup,
    c3_sort_determinism.2 [] _⟩
